import Mathlib

/-!
Shallow embedding of src/packages/react-use-query-params/src/useQueryParams.ts.

JS strings are modelled as lists of characters, a URLSearchParams object as
the ordered list of key and value pairs it holds, and a URL object as a
structure of protocol, host, pathname and search components.  Stateful hook
internals (the watching record, the listener set, history navigation) are
modelled by explicit state passing; JS exceptions are modelled with Except.
-/

namespace QueryParams

/-- Str models a JavaScript string as its list of characters. -/
abbrev Str := List Char

/-- SearchParams models a URLSearchParams object: the ordered list of
key and value pairs it currently holds. -/
abbrev SearchParams := List (Str × Str)

/-- Model of URLSearchParams.getAll: the values stored under a key, in order
of occurrence. -/
def getAll (key : Str) (sp : SearchParams) : List Str :=
  (sp.filter (fun p => decide (p.1 = key))).map (fun p => p.2)

/-- Model of URLSearchParams.delete: removes every pair with the given key,
keeping the remaining pairs in their relative order. -/
def deleteAll (key : Str) (sp : SearchParams) : SearchParams :=
  sp.filter (fun p => decide (¬ p.1 = key))

/-- Model of URLSearchParams.has. -/
def hasKey (key : Str) (sp : SearchParams) : Bool :=
  sp.any (fun p => decide (p.1 = key))

/-- EmbURL models a browser URL object by its components.  The search
component is kept in parsed form as a SearchParams list. -/
structure EmbURL where
  protocol : Str
  host : Str
  pathname : Str
  search : SearchParams
deriving DecidableEq, Repr

/-- ParamValue is the value attached to one key of an input mapping passed to
the mutators: either a plain JS string or an array of strings. -/
inductive ParamValue
  | str (s : Str)
  | arr (l : List Str)
deriving DecidableEq, Repr

instance : Inhabited ParamValue := ⟨.arr []⟩

/-- Mirrors the source expression Array.isArray(values) ? values : [values]
inside appendQueryParamsToURL. -/
def usableValues : ParamValue → List Str
  | .str s => [s]
  | .arr l => l

/-- InputParams models the object literal passed to the mutators, as the list
of its entries in Object.entries order; keys are unique for a JS object. -/
abbrev InputParams := List (Str × ParamValue)

/-- Keys of an input mapping, in entry order. -/
def mappingKeys (queryParams : InputParams) : List Str :=
  queryParams.map (fun kv => kv.1)

/-- One iteration of the loop body of appendQueryParamsToURL: delete every
existing value of the key, then append the supplied values in order. -/
def applyEntry (sp : SearchParams) (key : Str) (values : List Str) : SearchParams :=
  deleteAll key sp ++ values.map (fun v => (key, v))

/-- Effect of appendQueryParamsToURL on the search list alone: the loop over
Object.entries of the mapping, applied left to right. -/
def applyAll (queryParams : InputParams) (sp : SearchParams) : SearchParams :=
  queryParams.foldl (fun sp kv => applyEntry sp kv.1 (usableValues kv.2)) sp

/-- Model of appendQueryParamsToURL from useQueryParams.ts: for every entry of
the mapping, delete all existing values for that key on the URL, then append
the values of the entry in order. -/
def appendQueryParamsToURL (url : EmbURL) (queryParams : InputParams) : EmbURL :=
  { url with search := applyAll queryParams url.search }

/-- Pairs produced by flattening a mapping in entry order: for each entry, its
usable values tagged with its key. -/
def mappingPairs (queryParams : InputParams) : SearchParams :=
  (queryParams.map (fun kv => (usableValues kv.2).map (fun v => (kv.1, v)))).flatten

theorem mappingPairs_cons (kv : Str × ParamValue) (qp : InputParams) :
    mappingPairs (kv :: qp) =
      (usableValues kv.2).map (fun v => (kv.1, v)) ++ mappingPairs qp := by
  simp [mappingPairs]

theorem filter_of_all_pos {p : α → Bool} {l : List α} (h : ∀ a ∈ l, p a = true) :
    l.filter p = l := by
  induction l with
  | nil => rfl
  | cons a t ih =>
    simp only [List.filter_cons, h a (List.mem_cons_self a t), if_pos]
    exact congrArg (a :: ·) (ih fun b hb => h b (List.mem_cons_of_mem a hb))

theorem filter_of_all_neg {p : α → Bool} {l : List α} (h : ∀ a ∈ l, p a = false) :
    l.filter p = [] := by
  induction l with
  | nil => rfl
  | cons a t ih =>
    simp only [List.filter_cons, h a (List.mem_cons_self a t)]
    exact ih fun b hb => h b (List.mem_cons_of_mem a hb)

/-- Normal form of the appendQueryParamsToURL loop: when the mapping keys are
distinct (as Object.entries keys always are), the resulting search list is
the original list with every mapped key filtered out, followed by the
flattened mapping pairs in mapping order. -/
theorem applyAll_eq_filter_append (queryParams : InputParams)
    (h : (mappingKeys queryParams).Nodup) (sp : SearchParams) :
    applyAll queryParams sp =
      sp.filter (fun p => decide (¬ p.1 ∈ mappingKeys queryParams))
        ++ mappingPairs queryParams := by
  induction queryParams generalizing sp with
  | nil =>
    simp [applyAll, mappingKeys, mappingPairs]
  | cons kv qp ih =>
    have hcons : (kv.1 :: mappingKeys qp).Nodup := h
    have hk : kv.1 ∉ mappingKeys qp := (List.nodup_cons.mp hcons).1
    have hnd : (mappingKeys qp).Nodup := (List.nodup_cons.mp hcons).2
    have step : applyAll (kv :: qp) sp =
        applyAll qp (applyEntry sp kv.1 (usableValues kv.2)) := rfl
    rw [step, ih hnd]
    rw [applyEntry, deleteAll, List.filter_append, List.filter_filter]
    have hfil :
        sp.filter (fun p => decide (¬ p.1 ∈ mappingKeys qp) && decide (¬ p.1 = kv.1)) =
          sp.filter (fun p => decide (¬ p.1 ∈ mappingKeys (kv :: qp))) := by
      apply List.filter_congr
      intro p _
      by_cases he : p.1 = kv.1 <;> by_cases hm : p.1 ∈ mappingKeys qp <;>
        simp [mappingKeys, he, hm]
    have hmap :
        ((usableValues kv.2).map (fun v => (kv.1, v))).filter
            (fun p => decide (¬ p.1 ∈ mappingKeys qp)) =
          (usableValues kv.2).map (fun v => (kv.1, v)) := by
      apply filter_of_all_pos
      intro a ha
      rcases List.mem_map.mp ha with ⟨v, _, rfl⟩
      simpa using hk
    rw [hfil, hmap, mappingPairs_cons, List.append_assoc]

theorem getAll_append (key : Str) (a b : SearchParams) :
    getAll key (a ++ b) = getAll key a ++ getAll key b := by
  simp [getAll, List.filter_append]

theorem getAll_map_self (key : Str) (vs : List Str) :
    getAll key (vs.map (fun v => (key, v))) = vs := by
  induction vs with
  | nil => rfl
  | cons v t ih => simp [getAll, List.filter_cons] at ih ⊢; exact ih

theorem getAll_map_ne {key k : Str} (h : ¬ k = key) (vs : List Str) :
    getAll key (vs.map (fun v => (k, v))) = [] := by
  induction vs with
  | nil => rfl
  | cons v t ih => simp [getAll, List.filter_cons, h]

theorem getAll_mappingPairs_of_not_mem {key : Str} {qp : InputParams}
    (h : ¬ key ∈ mappingKeys qp) : getAll key (mappingPairs qp) = [] := by
  induction qp with
  | nil => rfl
  | cons kv t ih =>
    rw [mappingPairs_cons, getAll_append]
    have h1 : ¬ kv.1 = key := by
      intro he
      exact h (by simp [mappingKeys, he])
    have h2 : ¬ key ∈ mappingKeys t := fun hm => h (by simp [mappingKeys] at hm ⊢; tauto)
    rw [getAll_map_ne h1, ih h2]
    rfl

theorem getAll_mappingPairs_of_mem {kv : Str × ParamValue} {qp : InputParams}
    (hnd : (mappingKeys qp).Nodup) (hmem : kv ∈ qp) :
    getAll kv.1 (mappingPairs qp) = usableValues kv.2 := by
  induction qp with
  | nil => cases hmem
  | cons kv0 t ih =>
    have hcons : (kv0.1 :: mappingKeys t).Nodup := hnd
    have hk0 : kv0.1 ∉ mappingKeys t := (List.nodup_cons.mp hcons).1
    have hndt : (mappingKeys t).Nodup := (List.nodup_cons.mp hcons).2
    rw [mappingPairs_cons, getAll_append]
    rcases List.mem_cons.mp hmem with he | ht
    · subst he
      rw [getAll_map_self, getAll_mappingPairs_of_not_mem hk0, List.append_nil]
    · have hne : ¬ kv0.1 = kv.1 := by
        intro he
        exact hk0 (he ▸ List.mem_map.mpr ⟨kv, ht, rfl⟩)
      rw [getAll_map_ne hne, ih hndt ht, List.nil_append]

/-- C5: applyMapping semantics of appendQueryParamsToURL.  For a mapping with
distinct keys, the resulting search list is the untouched pairs of unmapped
keys in their original relative order followed by the mapping pairs appended
in mapping order (a single string coerced to a one element list), so every
mapped key reads back exactly the values of its mapping entry. -/
theorem appendQueryParamsToURL_delete_then_append (url : EmbURL)
    (queryParams : InputParams) (h : (mappingKeys queryParams).Nodup) :
    appendQueryParamsToURL url queryParams =
      { url with search :=
          url.search.filter (fun p => decide (¬ p.1 ∈ mappingKeys queryParams))
            ++ mappingPairs queryParams }
    ∧ (∀ kv ∈ queryParams,
        getAll kv.1 (appendQueryParamsToURL url queryParams).search =
          usableValues kv.2)
    ∧ (∀ key, ¬ key ∈ mappingKeys queryParams →
        getAll key (appendQueryParamsToURL url queryParams).search =
          getAll key url.search) := by
  have hnf : applyAll queryParams url.search =
      url.search.filter (fun p => decide (¬ p.1 ∈ mappingKeys queryParams))
        ++ mappingPairs queryParams := applyAll_eq_filter_append queryParams h url.search
  refine ⟨?_, ?_, ?_⟩
  · simp [appendQueryParamsToURL, hnf]
  · intro kv hkv
    have hmem : kv.1 ∈ mappingKeys queryParams := List.mem_map.mpr ⟨kv, hkv, rfl⟩
    have hfil : getAll kv.1
        (url.search.filter (fun p => decide (¬ p.1 ∈ mappingKeys queryParams))) = [] := by
      apply List.map_eq_nil_iff.mpr
      apply filter_of_all_neg
      intro p hp
      rcases List.mem_filter.mp hp with ⟨_, hpk⟩
      by_cases he : p.1 = kv.1
      · exact absurd hmem (by simpa [he] using hpk)
      · simpa using he
    simp only [appendQueryParamsToURL, hnf, getAll_append, hfil, List.nil_append]
    exact getAll_mappingPairs_of_mem h hkv
  · intro key hkey
    have hfil : getAll key
        (url.search.filter (fun p => decide (¬ p.1 ∈ mappingKeys queryParams))) =
          getAll key url.search := by
      simp only [getAll]
      rw [List.filter_filter]
      congr 1
      apply List.filter_congr
      intro p _
      by_cases he : p.1 = key
      · simp [he, hkey]
      · simp [he]
    simp only [appendQueryParamsToURL, hnf, getAll_append,
      getAll_mappingPairs_of_not_mem hkey, List.append_nil]
    exact hfil

/-- Witness for C5 at the example of the spec: applying the mapping with
tomato mapped to RED and ROUND onto /x?tomato=OLD&potato=Y while keeping
extras yields /x?potato=Y&tomato=RED&tomato=ROUND. -/
theorem appendQueryParamsToURL_delete_then_append_witness :
    (mappingKeys [("tomato".toList, ParamValue.arr ["RED".toList, "ROUND".toList])]).Nodup
    ∧ appendQueryParamsToURL
        ⟨"http:".toList, "h".toList, "/x".toList,
          [("tomato".toList, "OLD".toList), ("potato".toList, "Y".toList)]⟩
        [("tomato".toList, ParamValue.arr ["RED".toList, "ROUND".toList])] =
      ⟨"http:".toList, "h".toList, "/x".toList,
        [("potato".toList, "Y".toList), ("tomato".toList, "RED".toList),
         ("tomato".toList, "ROUND".toList)]⟩ := by
  refine ⟨by decide, ?_⟩
  have h := (appendQueryParamsToURL_delete_then_append
    ⟨"http:".toList, "h".toList, "/x".toList,
      [("tomato".toList, "OLD".toList), ("potato".toList, "Y".toList)]⟩
    [("tomato".toList, ParamValue.arr ["RED".toList, "ROUND".toList])] (by decide)).1
  rw [h]
  decide

/-- C8: idempotence of the mapping application.  Applying the same mapping
(with the distinct keys of an Object.entries listing) a second time, onto the
URL produced by the first application, yields the identical URL. -/
theorem appendQueryParamsToURL_idempotent (url : EmbURL) (queryParams : InputParams)
    (h : (mappingKeys queryParams).Nodup) :
    appendQueryParamsToURL (appendQueryParamsToURL url queryParams) queryParams =
      appendQueryParamsToURL url queryParams := by
  have hnf := applyAll_eq_filter_append queryParams h
  have hpairs : (mappingPairs queryParams).filter
      (fun p => decide (¬ p.1 ∈ mappingKeys queryParams)) = [] := by
    apply filter_of_all_neg
    intro a ha
    rcases List.mem_flatten.mp ha with ⟨blk, hblk, hab⟩
    rcases List.mem_map.mp hblk with ⟨kv, hkv, hblkeq⟩
    subst hblkeq
    rcases List.mem_map.mp hab with ⟨v, _, rfl⟩
    have hmem : (kv.1, v).1 ∈ mappingKeys queryParams :=
      List.mem_map.mpr ⟨kv, hkv, rfl⟩
    simpa using hmem
  have hff : ∀ sp : SearchParams,
      (sp.filter (fun p => decide (¬ p.1 ∈ mappingKeys queryParams))).filter
          (fun p => decide (¬ p.1 ∈ mappingKeys queryParams)) =
        sp.filter (fun p => decide (¬ p.1 ∈ mappingKeys queryParams)) := by
    intro sp
    rw [List.filter_filter]
    apply List.filter_congr
    intro p _
    by_cases hm : p.1 ∈ mappingKeys queryParams <;> simp [hm]
  simp only [appendQueryParamsToURL, hnf, List.filter_append, hpairs,
    List.append_nil, hff]

/-- Witness for C8 at a concrete URL and mapping with two distinct keys. -/
theorem appendQueryParamsToURL_idempotent_witness :
    (mappingKeys [("a".toList, ParamValue.str "1".toList),
        ("b".toList, ParamValue.arr ["2".toList, "3".toList])]).Nodup
    ∧ appendQueryParamsToURL
        (appendQueryParamsToURL
          ⟨"http:".toList, "h".toList, "/p".toList,
            [("b".toList, "0".toList), ("c".toList, "9".toList)]⟩
          [("a".toList, ParamValue.str "1".toList),
           ("b".toList, ParamValue.arr ["2".toList, "3".toList])])
        [("a".toList, ParamValue.str "1".toList),
         ("b".toList, ParamValue.arr ["2".toList, "3".toList])] =
      appendQueryParamsToURL
        ⟨"http:".toList, "h".toList, "/p".toList,
          [("b".toList, "0".toList), ("c".toList, "9".toList)]⟩
        [("a".toList, ParamValue.str "1".toList),
         ("b".toList, ParamValue.arr ["2".toList, "3".toList])] :=
  ⟨by decide, appendQueryParamsToURL_idempotent
    ⟨"http:".toList, "h".toList, "/p".toList,
      [("b".toList, "0".toList), ("c".toList, "9".toList)]⟩
    [("a".toList, ParamValue.str "1".toList),
     ("b".toList, ParamValue.arr ["2".toList, "3".toList])] (by decide)⟩

/-- Watching models the watching.current ref of a subscription: the insertion
ordered record mapping each read key to the value list seen at read time.
Keys are unique by construction of watch. -/
abbrev Watching := List (Str × List Str)

/-- Names of the inherited Object.prototype properties that the JS in
operator sees on a plain object literal even when nothing was assigned to
it.  The guard of watch therefore treats these key names as already present. -/
def objectProtoProps : List Str :=
  ["constructor".toList, "hasOwnProperty".toList, "isPrototypeOf".toList,
   "propertyIsEnumerable".toList, "toLocaleString".toList, "toString".toList,
   "valueOf".toList, "__proto__".toList, "__defineGetter__".toList,
   "__defineSetter__".toList, "__lookupGetter__".toList,
   "__lookupSetter__".toList]

/-- Model of the watch callback.  The source guard key in watching.current
uses the JS in operator, which walks the prototype chain: it is true both
for the keys recorded as own entries and for the inherited Object.prototype
property names.  When the guard is true the call is a no-op, otherwise the
value list of the key in the render snapshot is stored. -/
def watch (key : Str) (snapshot : SearchParams) (w : Watching) : Watching :=
  if decide (key ∈ objectProtoProps) || w.any (fun kv => decide (kv.1 = key)) then w
  else w ++ [(key, getAll key snapshot)]

/-- Lookup of the value list stored for a key in a watching record. -/
def lookupWatch (key : Str) (w : Watching) : Option (List Str) :=
  (w.find? (fun kv => decide (kv.1 = key))).map (fun kv => kv.2)

/-- Model of getParam: records the key via watch, then returns the first
value of the key in the snapshot, if any. -/
def getParam (key : Str) (snapshot : SearchParams) (w : Watching) :
    Watching × Option Str :=
  (watch key snapshot w, (getAll key snapshot).head?)

/-- Model of getParams: records the key via watch, then returns all values. -/
def getParams (key : Str) (snapshot : SearchParams) (w : Watching) :
    Watching × List Str :=
  (watch key snapshot w, getAll key snapshot)

/-- Model of hasParam: records the key via watch, then tests presence. -/
def hasParam (key : Str) (snapshot : SearchParams) (w : Watching) :
    Watching × Bool :=
  (watch key snapshot w, hasKey key snapshot)

/-- Model of the allParams getter watching effect: iterating the entries of
the render snapshot and calling watch on the key of each entry in order. -/
def allParamsWatch (snapshot : SearchParams) (w : Watching) : Watching :=
  snapshot.foldl (fun w p => watch p.1 snapshot w) w

/-- Per key test of the handle loop body: true when the value list of the key
in the new snapshot differs from the stored list in length, or, the lengths
being equal, in some element at the same index. -/
def keyDiffers (currentValues values : List Str) : Bool :=
  if currentValues.length ≠ values.length then true
  else (currentValues.zip values).any (fun p => decide (¬ p.1 = p.2))

/-- Model of the loop of the handle callback over the watching entries: the
computed shouldRerender flag.  The source breaks out of the outer loop on a
length mismatch and keeps scanning with the flag already set on an element
mismatch; both behaviours compute this disjunction. -/
def handleShouldRerender (currentParams : SearchParams) : Watching → Bool
  | [] => false
  | (key, values) :: rest =>
    let currentValues := getAll key currentParams
    if keyDiffers currentValues values then true
    else handleShouldRerender currentParams rest

/-- Model of the handle callback: on a detected difference the watching
record is cleared and a rerender is requested (flag true), otherwise the
state is left untouched. -/
def handle (currentParams : SearchParams) (w : Watching) : Bool × Watching :=
  if handleShouldRerender currentParams w then (true, []) else (false, w)

theorem keyDiffers_eq_true_iff : ∀ (a b : List Str), keyDiffers a b = true ↔ ¬ a = b
  | [], [] => by simp [keyDiffers]
  | [], y :: ys => by simp [keyDiffers]
  | x :: xs, [] => by simp [keyDiffers]
  | x :: xs, y :: ys => by
    have ih := keyDiffers_eq_true_iff xs ys
    by_cases hlen : xs.length = ys.length
    · have hk : keyDiffers (x :: xs) (y :: ys) =
          (decide (¬ x = y) || keyDiffers xs ys) := by
        simp [keyDiffers, hlen]
      rw [hk]
      simp only [Bool.or_eq_true, decide_eq_true_eq, ih]
      constructor
      · rintro (hxy | hxs) heq
        · injection heq with h1 h2
          exact hxy h1
        · injection heq with h1 h2
          exact hxs h2
      · intro hne
        by_cases hxy : x = y
        · right
          intro hxs
          exact hne (by rw [hxy, hxs])
        · exact Or.inl hxy
    · have hk : keyDiffers (x :: xs) (y :: ys) = true := by
        simp [keyDiffers, hlen]
      rw [hk]
      simp only [true_iff]
      intro heq
      injection heq with h1 h2
      exact hlen (by rw [h2])

theorem handleShouldRerender_eq_true_iff (currentParams : SearchParams)
    (w : Watching) :
    handleShouldRerender currentParams w = true ↔
      ∃ kv ∈ w, ¬ getAll kv.1 currentParams = kv.2 := by
  induction w with
  | nil => simp [handleShouldRerender]
  | cons kv rest ih =>
    have hstep : handleShouldRerender currentParams (kv :: rest) =
        if keyDiffers (getAll kv.1 currentParams) kv.2 then true
        else handleShouldRerender currentParams rest := rfl
    rw [hstep]
    by_cases hd : keyDiffers (getAll kv.1 currentParams) kv.2 = true
    · rw [if_pos hd]
      simp only [true_iff]
      exact ⟨kv, List.mem_cons_self kv rest, (keyDiffers_eq_true_iff _ _).mp hd⟩
    · have heq : getAll kv.1 currentParams = kv.2 := by
        by_contra hne
        exact hd ((keyDiffers_eq_true_iff _ _).mpr hne)
      rw [if_neg hd, ih]
      constructor
      · rintro ⟨kv2, hkv2, hne⟩
        exact ⟨kv2, List.mem_cons_of_mem kv hkv2, hne⟩
      · rintro ⟨kv2, hkv2, hne⟩
        rcases List.mem_cons.mp hkv2 with he | ht
        · refine absurd ?_ hne
          rw [he]
          exact heq
        · exact ⟨kv2, ht, hne⟩

theorem list_ne_iff_length_or_get (a b : List Str) :
    ¬ a = b ↔
      ¬ a.length = b.length
      ∨ ∃ i, ∃ h1 : i < a.length, ∃ h2 : i < b.length,
          ¬ a.get ⟨i, h1⟩ = b.get ⟨i, h2⟩ := by
  constructor
  · intro hne
    by_cases hlen : a.length = b.length
    · right
      by_contra hno
      push_neg at hno
      exact hne (List.ext_get hlen fun i h1 h2 => hno i h1 h2)
    · exact Or.inl hlen
  · rintro (hlen | ⟨i, h1, h2, hne⟩) heq
    · exact hlen (by rw [heq])
    · subst heq
      exact hne rfl

/-- C1: change detector biconditional.  A notification refreshes a
subscription exactly when some recorded key has a stored value list that
differs from the value list of that key in the new snapshot, in length or in
some element at the same index; a subscription with an empty watching record
never refreshes. -/
theorem handle_refresh_iff (currentParams : SearchParams) (w : Watching) :
    ((handle currentParams w).1 = true ↔
      ∃ kv ∈ w,
        ¬ (getAll kv.1 currentParams).length = kv.2.length
        ∨ ∃ i, ∃ h1 : i < (getAll kv.1 currentParams).length, ∃ h2 : i < kv.2.length,
            ¬ (getAll kv.1 currentParams).get ⟨i, h1⟩ = kv.2.get ⟨i, h2⟩)
    ∧ (handle currentParams []).1 = false := by
  constructor
  · have h1 : (handle currentParams w).1 = handleShouldRerender currentParams w := by
      unfold handle
      split
      · next hs => rw [hs]
      · next hs =>
        rw [Bool.not_eq_true] at hs
        rw [hs]
    rw [h1, handleShouldRerender_eq_true_iff]
    apply exists_congr
    intro kv
    apply and_congr_right
    intro _
    exact list_ne_iff_length_or_get (getAll kv.1 currentParams) kv.2
  · simp [handle, handleShouldRerender]
/-- C2: enumeration sensitivity fails on the code.  A subscription that read
the full key set through the allParams getter at the snapshot holding only
tomato=RED does have a nonempty watching record, yet when the navigation adds
the brand new key banana the handle callback computes no refresh: the loop
only visits the recorded key tomato, whose value list is unchanged.  The
README promises a rerender when a new query param is added after iterating
the available keys, so the code contradicts its own documentation here. -/
theorem allParams_new_key_no_refresh :
    allParamsWatch [("tomato".toList, "RED".toList)] [] =
      [("tomato".toList, ["RED".toList])]
    ∧ (handle [("tomato".toList, "RED".toList), ("banana".toList, "Y".toList)]
        (allParamsWatch [("tomato".toList, "RED".toList)] [])).1 = false := by
  constructor
  · decide
  · decide

/-- C9: string coercion of a ParamValuesArray.  The class overrides toString
to return the first element when the array is nonempty and the empty string
otherwise. -/
def ParamValuesArray.toString (a : List Str) : Str :=
  if h : 0 < a.length then a.get ⟨0, h⟩ else []

/-- C9: converting a ParamValuesArray to a string yields exactly its first
element when it is nonempty and the empty string when it is empty. -/
theorem paramValuesArray_toString_first (a : List Str) :
    ParamValuesArray.toString a = match a with
      | [] => []
      | x :: _ => x := by
  cases a with
  | nil => rfl
  | cons x t => simp [ParamValuesArray.toString]

theorem watch_of_proto {w : Watching} {key : Str} (s : SearchParams)
    (h : key ∈ objectProtoProps) : watch key s w = w := by
  unfold watch
  rw [decide_eq_true h, Bool.true_or, if_pos rfl]

theorem watch_of_any_true {w : Watching} {key : Str} (s : SearchParams)
    (h : w.any (fun kv => decide (kv.1 = key)) = true) :
    watch key s w = w := by
  unfold watch
  rw [h, Bool.or_true, if_pos rfl]

theorem watch_of_guard_false {w : Watching} {key : Str} (s : SearchParams)
    (hmem : ¬ key ∈ objectProtoProps)
    (h : w.any (fun kv => decide (kv.1 = key)) = false) :
    watch key s w = w ++ [(key, getAll key s)] := by
  unfold watch
  rw [decide_eq_false hmem, h, Bool.or_self, if_neg Bool.false_ne_true]

theorem lookupWatch_cons_ne {kv : Str × List Str} {key : Str} (rest : Watching)
    (hk : ¬ kv.1 = key) :
    lookupWatch key (kv :: rest) = lookupWatch key rest := by
  simp [lookupWatch, List.find?, hk]

/-- C10 counterexample: the first read of a key whose name collides with an
inherited Object.prototype property records no baseline.  At the snapshot
holding toString=x, a first read of the key toString through getParam leaves
the watching record empty — the JS in operator already sees the inherited
Object.prototype.toString, so the source guard skips the assignment — no
stored value list exists for the key, and a later change of that key is not
detected by handle.  This refutes the claim that the first read of every key
fixes a stored baseline for it. -/
theorem watch_proto_key_records_no_baseline :
    (getParam "toString".toList [("toString".toList, "x".toList)] []).1 = []
    ∧ lookupWatch "toString".toList
        (watch "toString".toList [("toString".toList, "x".toList)] []) = none
    ∧ (handle [("toString".toList, "y".toList)]
        (getParam "toString".toList [("toString".toList, "x".toList)] []).1).1 =
      false := by
  refine ⟨?_, ?_, ?_⟩ <;> decide

/-- C10 amended: first read wins for ordinary key names.  Recording an
already present key is a no-op, so a second watch of the same key against a
later snapshot leaves the record unchanged.  For a key that is not one of
the inherited Object.prototype property names, the stored baseline after a
watch is the previously stored list when the key was present and the
snapshot value list of the key at its first read otherwise; for a key name
colliding with an Object.prototype property the guard is already true, so
watch never records anything.  getParam, getParams and hasParam all record
through watch. -/
theorem watch_first_read_wins_amended (w : Watching) (s s2 : SearchParams)
    (key : Str) :
    watch key s2 (watch key s w) = watch key s w
    ∧ (¬ key ∈ objectProtoProps →
        lookupWatch key (watch key s w) =
          some ((lookupWatch key w).getD (getAll key s)))
    ∧ (key ∈ objectProtoProps → watch key s w = w)
    ∧ (getParam key s w).1 = watch key s w
    ∧ (getParams key s w).1 = watch key s w
    ∧ (hasParam key s w).1 = watch key s w := by
  refine ⟨?_, ?_, fun hmem => watch_of_proto s hmem, rfl, rfl, rfl⟩
  · by_cases hmem : key ∈ objectProtoProps
    · rw [watch_of_proto s hmem, watch_of_proto s2 hmem]
    · by_cases hany : w.any (fun kv => decide (kv.1 = key)) = true
      · rw [watch_of_any_true s hany, watch_of_any_true s2 hany]
      · have hanyf : w.any (fun kv => decide (kv.1 = key)) = false := by
          rwa [Bool.not_eq_true] at hany
        rw [watch_of_guard_false s hmem hanyf]
        apply watch_of_any_true s2
        exact List.any_eq_true.mpr ⟨(key, getAll key s), by simp⟩
  · intro hmem
    induction w with
    | nil =>
      rw [watch_of_guard_false (w := []) s hmem rfl]
      simp [lookupWatch]
    | cons kv rest ih =>
      by_cases hk : kv.1 = key
      · have hany : (kv :: rest).any (fun kv => decide (kv.1 = key)) = true :=
          List.any_eq_true.mpr ⟨kv, List.mem_cons_self kv rest, by simp [hk]⟩
        rw [watch_of_any_true s hany]
        simp [lookupWatch, List.find?, hk]
      · have hany : (kv :: rest).any (fun kv => decide (kv.1 = key)) =
            rest.any (fun kv => decide (kv.1 = key)) := by
          simp [List.any_cons, hk]
        rw [lookupWatch_cons_ne rest hk]
        by_cases hr : rest.any (fun kv => decide (kv.1 = key)) = true
        · rw [watch_of_any_true s (by rw [hany]; exact hr)]
          rw [lookupWatch_cons_ne rest hk]
          rw [watch_of_any_true s hr] at ih
          exact ih
        · have hrf : rest.any (fun kv => decide (kv.1 = key)) = false := by
            rwa [Bool.not_eq_true] at hr
          have hcf : (kv :: rest).any (fun kv => decide (kv.1 = key)) = false := by
            rw [hany]
            exact hrf
          rw [watch_of_guard_false s hmem hcf]
          rw [show (kv :: rest) ++ [(key, getAll key s)] =
            kv :: (rest ++ [(key, getAll key s)]) from rfl]
          rw [lookupWatch_cons_ne _ hk]
          rw [watch_of_guard_false s hmem hrf] at ih
          exact ih

/-- Witness for the amended C10: the ordinary key tomato gets its baseline
recorded at first read, while the prototype colliding key toString is left
unrecorded. -/
theorem watch_first_read_wins_amended_witness :
    ¬ "tomato".toList ∈ objectProtoProps
    ∧ lookupWatch "tomato".toList
        (watch "tomato".toList [("tomato".toList, "RED".toList)] []) =
      some ((lookupWatch "tomato".toList ([] : Watching)).getD
        (getAll "tomato".toList [("tomato".toList, "RED".toList)]))
    ∧ "toString".toList ∈ objectProtoProps
    ∧ watch "toString".toList [("toString".toList, "x".toList)] [] = [] := by
  refine ⟨by decide, ?_, by decide, ?_⟩
  · exact (watch_first_read_wins_amended []
      [("tomato".toList, "RED".toList)] [] "tomato".toList).2.1 (by decide)
  · exact (watch_first_read_wins_amended []
      [("toString".toList, "x".toList)] [] "toString".toList).2.2.1 (by decide)

/-- Splits a character list at every occurrence of a separator, mirroring the
JS String.split method with a one character separator: the result always has
at least one (possibly empty) part. -/
def splitOnChar (sep : Char) : Str → List Str
  | [] => [[]]
  | c :: cs =>
    if c = sep then [] :: splitOnChar sep cs
    else
      match splitOnChar sep cs with
      | [] => [[c]]
      | p :: ps => (c :: p) :: ps

/-- Parses a query string without its leading question mark into the ordered
key and value pairs, mirroring the URLSearchParams constructor on the plain
character data (percent decoding is not modelled; the claims only involve
unescaped characters). -/
def parseQuery (q : Str) : SearchParams :=
  if q = [] then []
  else
    (splitOnChar '&' q).map fun part =>
      (part.takeWhile (fun c => decide (¬ c = '=')),
       (part.dropWhile (fun c => decide (¬ c = '='))).drop 1)

/-- Serializes search pairs back to the query string body, without the
leading question mark. -/
def serializeQuery (sp : SearchParams) : Str :=
  List.intercalate ['&'] (sp.map (fun p => p.1 ++ '=' :: p.2))

/-- Model of the href property of a URL object: protocol, two slashes, host,
pathname, and the serialized search prefixed with a question mark when it is
nonempty. -/
def href (u : EmbURL) : Str :=
  u.protocol ++ "//".toList ++ u.host ++ u.pathname ++
    (match u.search with
     | [] => []
     | _ => '?' :: serializeQuery u.search)

/-- Continuation of parseURL after the scheme prefix has been consumed: the
host runs to the first slash or question mark and must be nonempty (the URL
constructor throws on an empty host, for example for the input http://). -/
def parseAfterScheme (proto rest : Str) : Except Str EmbURL :=
  let host := rest.takeWhile (fun c => decide (¬ c = '/') && decide (¬ c = '?'))
  let after := rest.dropWhile (fun c => decide (¬ c = '/') && decide (¬ c = '?'))
  if host = [] then .error "Invalid URL".toList
  else
    match after with
    | [] => .ok ⟨proto, host, ['/'], []⟩
    | '?' :: q => .ok ⟨proto, host, ['/'], parseQuery q⟩
    | _ =>
      .ok ⟨proto, host, after.takeWhile (fun c => decide (¬ c = '?')),
        match after.dropWhile (fun c => decide (¬ c = '?')) with
        | [] => []
        | _ :: q => parseQuery q⟩

/-- Model of the browser URL constructor on an absolute URL string: it
succeeds on an http or https scheme followed by a nonempty host, and throws
otherwise.  The result of a throw is an Except error value. -/
def parseURL (s : Str) : Except Str EmbURL :=
  if s.take 7 = "http://".toList then
    parseAfterScheme "http:".toList (s.drop 7)
  else if s.take 8 = "https://".toList then
    parseAfterScheme "https:".toList (s.drop 8)
  else .error "Invalid URL".toList

/-- Model of the JS String.trim call used on relative pathnames. -/
def trimStr (s : Str) : Str :=
  ((s.dropWhile Char.isWhitespace).reverse.dropWhile Char.isWhitespace).reverse

/-- Model of the pathname setter of a URL object, which ensures a leading
slash. -/
def setPathname (p : Str) : Str :=
  match p with
  | '/' :: _ => p
  | _ => '/' :: p

/-- Model of makeLocation from useQueryParams.ts.  The current location is
passed explicitly in place of window.location.href.  A full URL (one whose
text contains http:// or https://) is parsed by the URL constructor; an
absolute path replaces pathname and search of the current location; any
other string replaces the last path segment.  The query parameters are then
applied onto the chosen URL.  A URL constructor throw propagates as an
Except error. -/
def makeLocation (url : Str) (queryParams : InputParams) (current : EmbURL) :
    Except Str EmbURL :=
  let isFullURL := decide ("http://".toList <:+: url) || decide ("https://".toList <:+: url)
  let isAbsolute := !isFullURL && (match url with | '/' :: _ => true | _ => false)
  let nextURL : Except Str EmbURL :=
    if isFullURL then parseURL url
    else
      let parts := splitOnChar '?' url
      let pathname := parts.headD []
      let query := (parts.drop 1).head?
      if isAbsolute then
        .ok { current with
          pathname := setPathname pathname,
          search := parseQuery (query.getD []) }
      else
        let urlSegments := splitOnChar '/' current.pathname
        let lastKept :=
          if trimStr pathname ≠ [] then pathname
          else (urlSegments.getLast?).getD []
        .ok { current with
          pathname := setPathname (List.intercalate ['/'] (urlSegments.dropLast ++ [lastKept])),
          search := parseQuery (query.getD []) }
  match nextURL with
  | .error e => .error e
  | .ok u => .ok (appendQueryParamsToURL u queryParams)

/-- Argument of setLocation: the source accepts a URL object or a string. -/
inductive URLOrString
  | url (u : EmbURL)
  | str (s : Str)

/-- Navigation effect performed by setLocation: a history pushState, a
history replaceState, or a full page navigation through location.href for a
cross origin target. -/
inductive NavAction
  | pushState (href : Str)
  | replaceState (href : Str)
  | assignHref (href : Str)
deriving DecidableEq, Repr

/-- Model of setLocation from useQueryParams.ts: resolve the target URL
(through makeLocation for a string), then push or replace through the
history API for a same origin target and assign location.href otherwise.
There is no exception handler in the source, so a makeLocation throw
propagates to the caller as the error case and no navigation happens. -/
def setLocation (u : URLOrString) (queryParams : InputParams) (replace : Bool)
    (current : EmbURL) : Except Str NavAction :=
  match (match u with
         | .url v => Except.ok v
         | .str s => makeLocation s queryParams current) with
  | .error e => .error e
  | .ok nextURL =>
    if nextURL.host = current.host ∧ nextURL.protocol = current.protocol then
      if replace then .ok (.replaceState (href nextURL))
      else .ok (.pushState (href nextURL))
    else .ok (.assignHref (href nextURL))

/-- Model of mergeParams: setLocation on the current href, which merges. -/
def mergeParams (queryParams : InputParams) (replace : Bool) (current : EmbURL) :
    Except Str NavAction :=
  setLocation (.str (href current)) queryParams replace current

/-- Model of setParams: copy the current URL, clear its search (expected
behaviour is replacement), then delegate to setLocation with the href of the
cleared copy. -/
def setParams (queryParams : InputParams) (replace : Bool) (current : EmbURL) :
    Except Str NavAction :=
  setLocation (.str (href { current with search := [] })) queryParams replace current

theorem takeWhile_all_pos {p : Char → Bool} {l : Str} (h : ∀ a ∈ l, p a = true) :
    l.takeWhile p = l := by
  induction l with
  | nil => rfl
  | cons a t ih =>
    rw [List.takeWhile_cons_of_pos (h a (List.mem_cons_self a t))]
    exact congrArg (a :: ·) (ih fun b hb => h b (List.mem_cons_of_mem a hb))

theorem dropWhile_all_pos {p : Char → Bool} {l : Str} (h : ∀ a ∈ l, p a = true) :
    l.dropWhile p = [] := by
  induction l with
  | nil => rfl
  | cons a t ih =>
    rw [List.dropWhile_cons_of_pos (h a (List.mem_cons_self a t))]
    exact ih fun b hb => h b (List.mem_cons_of_mem a hb)

theorem takeWhile_append_head_neg {p : Char → Bool} {l1 : Str} {c : Char}
    (h1 : ∀ a ∈ l1, p a = true) (hc : p c = false) (l2 : Str) :
    (l1 ++ c :: l2).takeWhile p = l1 := by
  induction l1 with
  | nil => simp [List.takeWhile_cons, hc]
  | cons a t ih =>
    rw [List.cons_append,
      List.takeWhile_cons_of_pos (h1 a (List.mem_cons_self a t))]
    exact congrArg (a :: ·) (ih fun b hb => h1 b (List.mem_cons_of_mem a hb))

theorem dropWhile_append_head_neg {p : Char → Bool} {l1 : Str} {c : Char}
    (h1 : ∀ a ∈ l1, p a = true) (hc : p c = false) (l2 : Str) :
    (l1 ++ c :: l2).dropWhile p = c :: l2 := by
  induction l1 with
  | nil => simp [List.dropWhile_cons, hc]
  | cons a t ih =>
    rw [List.cons_append,
      List.dropWhile_cons_of_pos (h1 a (List.mem_cons_self a t))]
    exact ih fun b hb => h1 b (List.mem_cons_of_mem a hb)

/-- WellFormed states the browser context assumptions for a current location:
an http or https protocol, a nonempty host free of slash and question mark,
and a slash led pathname free of question marks.  Every URL the browser
exposes through window.location in this library satisfies these. -/
def WellFormed (u : EmbURL) : Prop :=
  (u.protocol = "http:".toList ∨ u.protocol = "https:".toList)
  ∧ ¬ u.host = []
  ∧ (∀ c ∈ u.host, ¬ c = '/' ∧ ¬ c = '?')
  ∧ u.pathname.head? = some '/'
  ∧ (∀ c ∈ u.pathname, ¬ c = '?')

instance (u : EmbURL) : Decidable (WellFormed u) := by
  unfold WellFormed
  infer_instance

/-- Round trip of the URL constructor model on a well formed URL carrying no
search component: parsing the href succeeds and returns the same URL. -/
theorem parseURL_href_of_empty_search (u : EmbURL) (hwf : WellFormed u)
    (hs : u.search = []) : parseURL (href u) = .ok u := by
  obtain ⟨hproto, hhost, hhostc, hpath, hpathc⟩ := hwf
  obtain ⟨rest, hrest⟩ : ∃ rest, u.pathname = '/' :: rest := by
    cases hp : u.pathname with
    | nil => rw [hp] at hpath; cases hpath
    | cons c t =>
      rw [hp] at hpath
      simp only [List.head?_cons, Option.some.injEq] at hpath
      exact ⟨t, by rw [hpath]⟩
  have hparse : ∀ proto : Str,
      parseAfterScheme proto (u.host ++ u.pathname) =
        .ok ⟨proto, u.host, u.pathname, []⟩ := by
    intro proto
    have hp : ∀ a ∈ u.host,
        (decide (¬ a = '/') && decide (¬ a = '?')) = true := by
      intro a ha
      rcases hhostc a ha with ⟨h1, h2⟩
      simp [h1, h2]
    have hslash : (decide (¬ '/' = '/') && decide (¬ '/' = '?')) = false := by decide
    have htw : (u.host ++ u.pathname).takeWhile
        (fun c => decide (¬ c = '/') && decide (¬ c = '?')) = u.host := by
      rw [hrest]
      exact takeWhile_append_head_neg hp hslash rest
    have hdw : (u.host ++ u.pathname).dropWhile
        (fun c => decide (¬ c = '/') && decide (¬ c = '?')) = u.pathname := by
      rw [hrest]
      exact dropWhile_append_head_neg hp hslash rest
    have hq : ∀ a ∈ u.pathname, (decide (¬ a = '?')) = true := by
      intro a ha
      simp [hpathc a ha]
    have htw2 : u.pathname.takeWhile (fun c => decide (¬ c = '?')) = u.pathname :=
      takeWhile_all_pos hq
    have hdw2 : u.pathname.dropWhile (fun c => decide (¬ c = '?')) = [] :=
      dropWhile_all_pos hq
    unfold parseAfterScheme
    rw [htw, hdw, if_neg (by simpa using hhost)]
    rw [hrest]
    have hne : ¬ ('/' : Char) = '?' := by decide
    cases rest with
    | nil =>
      rw [← hrest, htw2, hdw2]
      rw [hrest]
      rfl
    | cons c2 t2 =>
      rw [← hrest, htw2, hdw2]
      rw [hrest]
      rfl
  rcases hproto with hp | hp
  · have hhref : href u = "http://".toList ++ (u.host ++ u.pathname) := by
      unfold href
      rw [hp, hs]
      simp
    rw [hhref]
    unfold parseURL
    have h7 : ("http://".toList).length = 7 := by decide
    rw [if_pos (by rw [← h7, List.take_left])]
    rw [← h7, List.drop_left, hparse]
    cases u with
    | mk pr ho pa se =>
      simp only at hp hs
      rw [hp, hs]
  · have hhref : href u = "https://".toList ++ (u.host ++ u.pathname) := by
      unfold href
      rw [hp, hs]
      simp
    rw [hhref]
    unfold parseURL
    have h8 : ("https://".toList).length = 8 := by decide
    have hne7 : ("https://".toList ++ (u.host ++ u.pathname)).take 7 ≠
        "http://".toList := by
      intro habs
      have : ("https://".toList ++ (u.host ++ u.pathname)).take 7 =
          "https:/".toList := by
        have : ("https://".toList ++ (u.host ++ u.pathname)) =
            "https:/".toList ++ ('/' :: (u.host ++ u.pathname)) := by simp
        rw [this]
        have h7 : ("https:/".toList).length = 7 := by decide
        rw [← h7, List.take_left]
      rw [this] at habs
      exact absurd habs (by decide)
    rw [if_neg hne7]
    rw [if_pos (by rw [← h8, List.take_left])]
    rw [← h8, List.drop_left, hparse]
    cases u with
    | mk pr ho pa se =>
      simp only at hp hs
      rw [hp, hs]

theorem href_empty_search_http {u : EmbURL} (hp : u.protocol = "http:".toList)
    (hs : u.search = []) : href u = "http://".toList ++ (u.host ++ u.pathname) := by
  unfold href
  rw [hp, hs]
  simp

theorem href_empty_search_https {u : EmbURL} (hp : u.protocol = "https:".toList)
    (hs : u.search = []) : href u = "https://".toList ++ (u.host ++ u.pathname) := by
  unfold href
  rw [hp, hs]
  simp

/-- Core computation of setParams on a well formed current location and a
mapping with distinct keys: the search is cleared, the cleared href is parsed
back, the mapping is applied onto the empty search space, and a same origin
push or replace navigation is produced. -/
theorem setParams_navigates (current : EmbURL) (queryParams : InputParams)
    (replace : Bool) (hwf : WellFormed current)
    (hnd : (mappingKeys queryParams).Nodup) :
    setParams queryParams replace current =
      .ok ((if replace then NavAction.replaceState else NavAction.pushState)
        (href { current with search := mappingPairs queryParams })) := by
  have hwf0 : WellFormed { current with search := ([] : SearchParams) } := hwf
  have hparse : parseURL (href { current with search := ([] : SearchParams) }) =
      .ok { current with search := ([] : SearchParams) } :=
    parseURL_href_of_empty_search _ hwf0 rfl
  have hfull : (decide ("http://".toList <:+:
        href { current with search := ([] : SearchParams) })
      || decide ("https://".toList <:+:
        href { current with search := ([] : SearchParams) })) = true := by
    rcases hwf.1 with hp | hp
    · have hh := href_empty_search_http
        (u := { current with search := ([] : SearchParams) }) hp rfl
      have : "http://".toList <:+:
          href { current with search := ([] : SearchParams) } :=
        ⟨[], current.host ++ current.pathname, by rw [hh]; simp⟩
      rw [decide_eq_true this, Bool.true_or]
    · have hh := href_empty_search_https
        (u := { current with search := ([] : SearchParams) }) hp rfl
      have : "https://".toList <:+:
          href { current with search := ([] : SearchParams) } :=
        ⟨[], current.host ++ current.pathname, by rw [hh]; simp⟩
      rw [decide_eq_true this, Bool.or_true]
  have hml : makeLocation (href { current with search := ([] : SearchParams) })
      queryParams current =
      .ok (appendQueryParamsToURL { current with search := ([] : SearchParams) }
        queryParams) := by
    unfold makeLocation
    rw [hfull]
    simp only [if_true, hparse]
  have happly : applyAll queryParams ([] : SearchParams) = mappingPairs queryParams := by
    rw [applyAll_eq_filter_append queryParams hnd]
    rfl
  have happ : appendQueryParamsToURL { current with search := ([] : SearchParams) }
      queryParams = { current with search := mappingPairs queryParams } := by
    unfold appendQueryParamsToURL
    rw [show ({ current with search := ([] : SearchParams) } : EmbURL).search =
      ([] : SearchParams) from rfl, happly]
  unfold setParams setLocation
  simp only [hml, happ]
  rw [if_pos ⟨trivial, trivial⟩]
  cases replace <;> rfl

/-- C4: full replace default of setParams.  For a well formed current
location and a literal mapping with distinct keys, setParams navigates (push
by default, replace on request) to the current URL with the query parameter
space replaced by exactly the flattened mapping; every key absent from the
mapping reads back empty in the new search space. -/
theorem setParams_full_replace (current : EmbURL) (queryParams : InputParams)
    (replace : Bool) (hwf : WellFormed current)
    (hnd : (mappingKeys queryParams).Nodup) :
    setParams queryParams replace current =
      .ok ((if replace then NavAction.replaceState else NavAction.pushState)
        (href { current with search := mappingPairs queryParams }))
    ∧ (∀ key, ¬ key ∈ mappingKeys queryParams →
        getAll key (mappingPairs queryParams) = []) :=
  ⟨setParams_navigates current queryParams replace hwf hnd,
   fun _ hkey => getAll_mappingPairs_of_not_mem hkey⟩

/-- Witness for C4 at the example of the spec: at /page?tomato=RED&session=abc
the call setParams with the literal mapping tomato to GREEN pushes a URL
whose search space is exactly tomato=GREEN, and the unrelated session key is
removed. -/
theorem setParams_full_replace_witness :
    WellFormed ⟨"http:".toList, "example.com".toList, "/page".toList,
      [("tomato".toList, "RED".toList), ("session".toList, "abc".toList)]⟩
    ∧ (mappingKeys [("tomato".toList, ParamValue.str "GREEN".toList)]).Nodup
    ∧ setParams [("tomato".toList, ParamValue.str "GREEN".toList)] false
        ⟨"http:".toList, "example.com".toList, "/page".toList,
          [("tomato".toList, "RED".toList), ("session".toList, "abc".toList)]⟩ =
      .ok (NavAction.pushState
        (href ⟨"http:".toList, "example.com".toList, "/page".toList,
          [("tomato".toList, "GREEN".toList)]⟩))
    ∧ serializeQuery [("tomato".toList, "GREEN".toList)] = "tomato=GREEN".toList
    ∧ getAll "session".toList [("tomato".toList, "GREEN".toList)] = [] := by
  refine ⟨by decide, by decide, ?_, by decide, by decide⟩
  have h := (setParams_full_replace
    ⟨"http:".toList, "example.com".toList, "/page".toList,
      [("tomato".toList, "RED".toList), ("session".toList, "abc".toList)]⟩
    [("tomato".toList, ParamValue.str "GREEN".toList)] false
    (by decide) (by decide)).1
  rw [h]
  rfl

/-- C6 counterexample: the URL constructor failure is not caught inside the
write operation.  On the malformed full URL string http:// (its host is
empty) the construction fails and setLocation propagates the error to its
caller, so the claimed caught-and-logged, nothing-thrown behaviour is false
for the code: the call does not resolve to a success value. -/
theorem setLocation_malformed_throws :
    setLocation (.str "http://".toList) [] false
        ⟨"http:".toList, "example.com".toList, "/page".toList, []⟩ =
      .error "Invalid URL".toList
    ∧ ¬ (∃ act, setLocation (.str "http://".toList) [] false
        ⟨"http:".toList, "example.com".toList, "/page".toList, []⟩ =
          .ok act) := by
  constructor
  · rfl
  · rintro ⟨act, hact⟩
    rw [show setLocation (.str "http://".toList) [] false
        ⟨"http:".toList, "example.com".toList, "/page".toList, []⟩ =
      .error "Invalid URL".toList from rfl] at hact
    cases hact

/-- C6 amended: when URL construction inside makeLocation fails, the source
has no exception handler, so the error propagates unchanged to the caller of
setLocation and no navigation action is produced; there is no logging. -/
theorem setLocation_error_propagates (s : Str) (queryParams : InputParams)
    (replace : Bool) (current : EmbURL) (e : Str)
    (h : makeLocation s queryParams current = .error e) :
    setLocation (.str s) queryParams replace current = .error e := by
  unfold setLocation
  simp only [h]

/-- Witness for the amended C6 at the malformed input http://. -/
theorem setLocation_error_propagates_witness :
    makeLocation "http://".toList []
        ⟨"http:".toList, "example.com".toList, "/page".toList, []⟩ =
      .error "Invalid URL".toList
    ∧ setLocation (.str "http://".toList) [] false
        ⟨"http:".toList, "example.com".toList, "/page".toList, []⟩ =
      .error "Invalid URL".toList :=
  ⟨rfl, setLocation_error_propagates "http://".toList [] false
    ⟨"http:".toList, "example.com".toList, "/page".toList, []⟩
    "Invalid URL".toList rfl⟩

/-- SetParamsArg models the JS runtime value passed as the first argument of
setParams: the README documents both a literal mapping and an updater
function, which receives the current params view and returns a mapping. -/
inductive SetParamsArg
  | mapping (m : InputParams)
  | updater (f : List (Str × List Str) → InputParams)

/-- Model of how the source consumes its queryParams argument: the argument
flows untouched into Object.entries inside appendQueryParamsToURL.  A JS
function value has no own enumerable string keyed properties, so its entries
listing is empty and the function is never invoked by the source. -/
def entriesOfArg : SetParamsArg → InputParams
  | .mapping m => m
  | .updater _ => []

/-- Model of setParams applied to the raw JS argument value. -/
def setParamsJS (arg : SetParamsArg) (replace : Bool) (current : EmbURL) :
    Except Str NavAction :=
  setParams (entriesOfArg arg) replace current

/-- C3: the code does not support a function updater.  Passing an updater to
setParams never invokes it (the result is independent of the function) and
behaves as the empty mapping: all query parameters are cleared and the
updater result is ignored, contradicting the documented functional updates
of the README and the claimed pause-protected updater invocation. -/
theorem setParams_updater_never_invoked
    (f g : List (Str × List Str) → InputParams) (replace : Bool)
    (current : EmbURL) (hwf : WellFormed current) :
    setParamsJS (.updater f) replace current = setParamsJS (.updater g) replace current
    ∧ setParamsJS (.updater f) replace current =
        .ok ((if replace then NavAction.replaceState else NavAction.pushState)
          (href { current with search := [] })) := by
  refine ⟨rfl, ?_⟩
  have h := setParams_navigates current [] replace hwf List.nodup_nil
  exact h

/-- Witness for C3: an updater that reads tomato and writes GREEN is ignored;
the navigation clears every parameter instead of applying the update. -/
theorem setParams_updater_never_invoked_witness :
    WellFormed ⟨"http:".toList, "example.com".toList, "/page".toList,
      [("tomato".toList, "RED".toList)]⟩
    ∧ setParamsJS
        (.updater fun params =>
          [("tomato".toList, ParamValue.str "GREEN".toList),
           ("seen".toList, ParamValue.arr (getAll "tomato".toList
             (params.map (fun kv => (kv.1, ParamValuesArray.toString kv.2)))))])
        false
        ⟨"http:".toList, "example.com".toList, "/page".toList,
          [("tomato".toList, "RED".toList)]⟩ =
      .ok (NavAction.pushState
        (href ⟨"http:".toList, "example.com".toList, "/page".toList, []⟩)) := by
  refine ⟨by decide, ?_⟩
  have h := (setParams_updater_never_invoked
    (fun params =>
      [("tomato".toList, ParamValue.str "GREEN".toList),
       ("seen".toList, ParamValue.arr (getAll "tomato".toList
         (params.map (fun kv => (kv.1, ParamValuesArray.toString kv.2)))))])
    (fun _ => [])
    false
    ⟨"http:".toList, "example.com".toList, "/page".toList,
      [("tomato".toList, "RED".toList)]⟩ (by decide)).2
  exact h

/-- CallbackBehavior models one listener registered in the module level
listener set: when notified it either returns normally or throws. -/
inductive CallbackBehavior
  | succeeds
  | throws (e : Str)
deriving DecidableEq, Repr

/-- Trace of the forEach loop of runListeners starting at index i: the
indices of the listeners that were invoked, and the exception that escaped
the loop, if any.  The source invokes each listener with no exception
handler, so a throw ends the iteration at once and propagates. -/
def runListenersAux (i : Nat) : List CallbackBehavior → List Nat × Option Str
  | [] => ([], none)
  | .succeeds :: rest =>
    let r := runListenersAux (i + 1) rest
    (i :: r.1, r.2)
  | .throws e :: _ => ([i], some e)

/-- Model of runListeners from useQueryParams.ts: listeners.forEach invoking
every registered listener in registration order, without any per callback
exception handling. -/
def runListeners (cbs : List CallbackBehavior) : List Nat × Option Str :=
  runListenersAux 0 cbs

/-- C7 counterexample: one faulting callback is not contained.  With two
registered listeners where the first throws, only index 0 is invoked, the
exception escapes runListeners, and listener 1 is never run — the claimed
log-and-continue containment is false for the code. -/
theorem runListeners_fault_not_contained :
    runListeners [CallbackBehavior.throws "boom".toList, CallbackBehavior.succeeds] =
      ([0], some "boom".toList)
    ∧ ¬ 1 ∈ (runListeners
        [CallbackBehavior.throws "boom".toList, CallbackBehavior.succeeds]).1 := by
  constructor
  · rfl
  · decide

theorem runListenersAux_aborts (e : Str) (post : List CallbackBehavior) :
    ∀ (pre : List CallbackBehavior) (i : Nat),
      (∀ c ∈ pre, c = CallbackBehavior.succeeds) →
      runListenersAux i (pre ++ CallbackBehavior.throws e :: post) =
        (List.range' i (pre.length + 1), some e)
  | [], i, _ => by
    simp [runListenersAux, List.range']
  | c :: pre, i, h => by
    have hc : c = CallbackBehavior.succeeds := h c (List.mem_cons_self c pre)
    subst hc
    have ih := runListenersAux_aborts e post pre (i + 1)
      (fun b hb => h b (List.mem_cons_of_mem _ hb))
    have hstep : runListenersAux i
        ((CallbackBehavior.succeeds :: pre) ++ CallbackBehavior.throws e :: post) =
        (i :: (runListenersAux (i + 1) (pre ++ CallbackBehavior.throws e :: post)).1,
         (runListenersAux (i + 1) (pre ++ CallbackBehavior.throws e :: post)).2) := rfl
    rw [hstep, ih]
    rfl

/-- C7 amended: a throwing notification callback aborts the notification
loop.  For any listener list made of a successful segment, a throwing
listener, and an arbitrary tail, exactly the indices up to and including the
thrower are invoked, the exception propagates out of runListeners, and no
listener after the thrower runs. -/
theorem runListeners_aborts_after_throw (pre post : List CallbackBehavior)
    (e : Str) (h : ∀ c ∈ pre, c = CallbackBehavior.succeeds) :
    runListeners (pre ++ CallbackBehavior.throws e :: post) =
      (List.range (pre.length + 1), some e)
    ∧ ∀ j, pre.length < j →
        ¬ j ∈ (runListeners (pre ++ CallbackBehavior.throws e :: post)).1 := by
  have hr := runListenersAux_aborts e post pre 0 h
  have hrange : List.range' 0 (pre.length + 1) = List.range (pre.length + 1) :=
    (List.range_eq_range' (pre.length + 1)).symm
  constructor
  · rw [runListeners, hr, hrange]
  · intro j hj hmem
    rw [runListeners, hr, hrange] at hmem
    have := List.mem_range.mp hmem
    omega

/-- Witness for the amended C7 with one successful listener before the
thrower and one listener after it. -/
theorem runListeners_aborts_after_throw_witness :
    (∀ c ∈ [CallbackBehavior.succeeds], c = CallbackBehavior.succeeds)
    ∧ runListeners [CallbackBehavior.succeeds, CallbackBehavior.throws "boom".toList,
        CallbackBehavior.succeeds] = ([0, 1], some "boom".toList)
    ∧ ¬ 2 ∈ (runListeners [CallbackBehavior.succeeds,
        CallbackBehavior.throws "boom".toList, CallbackBehavior.succeeds]).1 := by
  have h := runListeners_aborts_after_throw [CallbackBehavior.succeeds]
    [CallbackBehavior.succeeds] "boom".toList (by decide)
  exact ⟨by decide, h.1, h.2 2 (by decide)⟩

end QueryParams
